import Mathlib

/-!
Verification of the `selfreplicators` evolutionary search engine
(`src/main.rs`): a SUBLEQ one-instruction virtual machine, a fitness
evaluator with a self-copy scan, the authoritative replication check,
and the genetic operators (crossover, mutation).

Machine integers (`i32`) are modelled as `Int` with explicit wrap-around
at `2^31`; memory is a `List Int`; the execution loop is driven by an
explicit fuel parameter equal to `max_execution_steps`, which makes the
fuel-out case coincide exactly with the `steps < MAX_EXECUTION_STEPS`
guard of the Rust `while` loop.

Randomness-consuming operations (`new`, `mutate`, `crossover`) take the
realized random draws as explicit parameters.
-/

/-- `MEMORY_SIZE` from the source (an `i32` constant). -/
def memorySize : Int := 256

/-- `MAX_EXECUTION_STEPS` from the source. -/
def maxExecutionSteps : Nat := 1000

/-- `MUTATION_RATE` is irrelevant here (mutation draws are explicit). -/
def minProgramLength : Nat := 6

def maxProgramLength : Nat := 64

/-- `i32::wrapping_sub`: subtraction wrapped into `[-2^31, 2^31)`. -/
def i32wrapSub (x y : Int) : Int := (x - y + 2 ^ 31) % 2 ^ 32 - 2 ^ 31

/-- `i32::rem_euclid(MEMORY_SIZE) as usize`: non-negative remainder. -/
def wrapAddr (x : Int) : Nat := (x % memorySize).toNat

/-- Memory setup of `execute`: a zeroed image of `MEMORY_SIZE` cells
overlaid with the genome at the low addresses
(`memory[..code.len()].copy_from_slice(&code)`). -/
def loadMemory (code : List Int) : List Int :=
  code ++ List.replicate (memorySize.toNat - code.length) 0

/-- The `while` loop of `SUBLEQProgram::execute`, with explicit fuel.
Each iteration: read raw operands at `pc, pc+1, pc+2`, reduce them by
`rem_euclid(MEMORY_SIZE)`, and (the defensive bounds check passing)
subtract `memory[b]` from `memory[a]` with wrap-around, branching to
`c % memory.len()` when the result is non-positive. -/
def execLoop : Nat → List Int → Nat → Nat → List Int × Nat
  | 0, mem, _, steps => (mem, steps)
  | fuel + 1, mem, pc, steps =>
    if pc < mem.length - 2 ∧ steps < maxExecutionSteps then
      let a := wrapAddr (mem.getD pc 0)
      let b := wrapAddr (mem.getD (pc + 1) 0)
      let c := wrapAddr (mem.getD (pc + 2) 0)
      if a < mem.length ∧ b < mem.length then
        let mem' := mem.set a (i32wrapSub (mem.getD a 0) (mem.getD b 0))
        if mem'.getD a 0 ≤ 0 then
          execLoop fuel mem' (c % mem'.length) (steps + 1)
        else
          execLoop fuel mem' (pc + 3) (steps + 1)
      else
        execLoop fuel mem (pc + 3) (steps + 1)
    else
      (mem, steps)

/-- `SUBLEQProgram::execute`: returns the final memory image and the
step count. -/
def execute (code : List Int) : List Int × Nat :=
  execLoop maxExecutionSteps (loadMemory code) 0 0

/-- Fault-checking variant of the loop: every memory read goes through
`List.get?` and the defensive `a < len && b < len` branch is omitted, so
any out-of-bounds access surfaces as `none`. -/
def execLoopChecked : Nat → List Int → Nat → Nat → Option (List Int × Nat)
  | 0, mem, _, steps => some (mem, steps)
  | fuel + 1, mem, pc, steps =>
    if pc < mem.length - 2 ∧ steps < maxExecutionSteps then do
      let ra ← mem.get? pc
      let rb ← mem.get? (pc + 1)
      let rc ← mem.get? (pc + 2)
      let a := wrapAddr ra
      let b := wrapAddr rb
      let c := wrapAddr rc
      let va ← mem.get? a
      let vb ← mem.get? b
      let mem' := mem.set a (i32wrapSub va vb)
      if mem'.getD a 0 ≤ 0 then
        execLoopChecked fuel mem' (c % mem'.length) (steps + 1)
      else
        execLoopChecked fuel mem' (pc + 3) (steps + 1)
    else
      some (mem, steps)

/-- The loop with the defensive `a < len && b < len` branch removed
(subtraction always performed), total. -/
def execLoopNoCheck : Nat → List Int → Nat → Nat → List Int × Nat
  | 0, mem, _, steps => (mem, steps)
  | fuel + 1, mem, pc, steps =>
    if pc < mem.length - 2 ∧ steps < maxExecutionSteps then
      let a := wrapAddr (mem.getD pc 0)
      let b := wrapAddr (mem.getD (pc + 1) 0)
      let c := wrapAddr (mem.getD (pc + 2) 0)
      let mem' := mem.set a (i32wrapSub (mem.getD a 0) (mem.getD b 0))
      if mem'.getD a 0 ≤ 0 then
        execLoopNoCheck fuel mem' (c % mem'.length) (steps + 1)
      else
        execLoopNoCheck fuel mem' (pc + 3) (steps + 1)
    else
      (mem, steps)

/-- Inner loop of the fitness scan: `for (j, &val) in code.iter().enumerate()
{ if result[i+j] == val { correct += 1 } else { break } }`, counting
matches from index `idx` of `result` until the first mismatch. -/
def scanMatchAux (result : List Int) : Nat → List Int → Nat
  | _, [] => 0
  | idx, v :: rest =>
    if result.getD idx 0 = v then 1 + scanMatchAux result (idx + 1) rest else 0

/-- The self-copy scan of `SUBLEQProgram::fitness`: the running maximum
`max_copies` over start offsets `i in 0..result.len() - code.len()`. -/
def maxCopies (code result : List Int) : Nat :=
  (List.range (result.length - code.length)).foldl
    (fun acc i => max acc (scanMatchAux result i code)) 0

/-- `SUBLEQProgram::fitness`: full-copy branch scores
`max_copies * 1000 / (len * steps.max(1))`, otherwise `max_copies`. -/
def fitness (code : List Int) : Nat :=
  let r := execute code
  let m := maxCopies code r.1
  if m = code.length then m * 1000 / (code.length * max r.2 1) else m

/-- `SUBLEQProgram::verify_replication`: scans offsets
`i in code.len()..result.len() - code.len()` for an exact slice equality
`code == result[i..i+code.len()]`. -/
def verify_replication (code : List Int) : Bool :=
  let result := (execute code).1
  (List.range' code.length (result.length - code.length - code.length)).any
    fun i => (result.drop i).take code.length == code

/-- The spec's phrasing of the per-offset match: "the length of the
longest prefix match between `genome` and `memory[i .. i+len(genome))`
(stop counting at the first mismatching position)". -/
def specPrefixLen (result code : List Int) (i : Nat) : Nat :=
  ((code.zip ((result.drop i).take code.length)).takeWhile
    fun p => p.1 == p.2).length

/-- The self-copy scan exactly as claimed by the spec: only offsets
beyond the genome's own load region, `len(genome) ≤ i ≤
memory_size − len(genome)`, are considered. -/
def claimScanBest (code : List Int) : Nat :=
  (Finset.Icc code.length (memorySize.toNat - code.length)).sup
    (specPrefixLen (execute code).1 code)

/-- `SUBLEQProgram::new(length)`, with the realized uniform draws
`gen_range(-MEMORY_SIZE..MEMORY_SIZE)` passed explicitly. -/
def SUBLEQProgram.new (length : Nat) (draw : Nat → Int) : List Int :=
  (List.range length).map draw

/-- `SUBLEQProgram::mutate`, with the realized per-position coin flips
(`rng.gen::<f64>() < MUTATION_RATE`) and replacement draws explicit. -/
def mutate (code : List Int) (flip : Nat → Bool) (draw : Nat → Int) : List Int :=
  code.mapIdx fun i v => if flip i then draw i else v

/-- `crossover(a, b)`, with the realized `split` draw and the realized
fresh fill values (positions `min_len..child_len`) passed explicitly:
`child[..split] = a[..split]`, `child[split..min_len] = b[split..min_len]`,
and `child[min_len..child_len]` is the fresh fill. -/
def crossover (a b : List Int) (split : Nat) (fresh : List Int) : List Int :=
  a.take split ++ (b.take (min a.length b.length)).drop split ++ fresh

/-- `main`'s best-fitness value: `*fitness_scores.iter().max().unwrap()`
(for a nonempty score list this is the maximum element). -/
def bestFitness (scores : List Nat) : Nat := scores.foldl max 0

/-- `main`'s selected index:
`fitness_scores.iter().position(|&r| r == best_fitness).unwrap()`. -/
def bestIdx (scores : List Nat) : Nat :=
  scores.findIdx fun s => s == bestFitness scores

/-- Genome value range: each value in `[-MEMORY_SIZE, MEMORY_SIZE)`. -/
def valueInRange (v : Int) : Prop := -memorySize ≤ v ∧ v < memorySize

instance : DecidablePred valueInRange := fun v =>
  inferInstanceAs (Decidable (-memorySize ≤ v ∧ v < memorySize))

/-- A genome that halts after one step leaving memory untouched:
`memory[3] -= memory[3]` gives `0`, branch to `254`, halt. Its own
load region is then an exact prefix match at offset `0`. -/
def gSelfIntact : List Int := [3, 3, 254, 0, 0, 0]

/-- A genome of length 128 that copies itself to the upper half of
memory, `[128, 256)`: a SUBLEQ copy loop (instructions at `0..20`)
moves cells `1..127` to `129..255` by self-modifying its source and
destination operand cells (addresses `1` and `3`), then fix-up code at
`21..29` repairs the copies of the two pointer cells and of the loop
counter (address `30`) to their initial values and halts. Cell `0`
doubles as the zero temporary, so its copy (address `128`) correctly
stays `0`. The only full copy in the final image sits at offset
exactly `128 = memory_size − len`. -/
def gTopCopy : List Int :=
  [0, 1, 3, 129, 0, 6, 0, 0, 9, 1, 31, 12, 3, 31, 15, 30, 32, 21, 0, 0, 0,
   131, 33, 24, 158, 34, 27, 0, 0, 254, 127, -1, 1, 2, -29] ++ List.replicate 93 0

/-! ## Helper lemmas -/

theorem wrapAddr_lt (x : Int) : wrapAddr x < memorySize.toNat := by
  have h1 : 0 ≤ x % memorySize := Int.emod_nonneg x (by decide)
  have h2 : x % memorySize < memorySize := Int.emod_lt_of_pos x (by decide)
  unfold wrapAddr
  unfold memorySize at *
  omega

theorem get?_eq_some_getD (l : List Int) (i : Nat) (h : i < l.length) :
    l.get? i = some (l.getD i 0) := by
  rw [List.get?_eq_getElem?, List.getElem?_eq_getElem h,
    List.getD_eq_getElem?_getD, List.getElem?_eq_getElem h]
  rfl

theorem execLoop_length (fuel : Nat) :
    ∀ mem pc steps, (execLoop fuel mem pc steps).1.length = mem.length := by
  induction fuel with
  | zero => intro mem pc steps; rfl
  | succ n ih =>
    intro mem pc steps
    simp only [execLoop]
    split
    · split
      · split
        · simp [ih, List.length_set]
        · simp [ih, List.length_set]
      · exact ih ..
    · rfl

theorem execLoop_steps_le (fuel : Nat) :
    ∀ mem pc steps, steps ≤ maxExecutionSteps →
      (execLoop fuel mem pc steps).2 ≤ maxExecutionSteps := by
  induction fuel with
  | zero => intro mem pc steps h; exact h
  | succ n ih =>
    intro mem pc steps h
    simp only [execLoop]
    split
    · next hg =>
      have hs : steps + 1 ≤ maxExecutionSteps := hg.2
      split
      · split
        · exact ih _ _ _ hs
        · exact ih _ _ _ hs
      · exact ih _ _ _ hs
    · exact h

theorem execLoopChecked_eq (fuel : Nat) :
    ∀ mem pc steps, mem.length = memorySize.toNat →
      execLoopChecked fuel mem pc steps = some (execLoop fuel mem pc steps) := by
  induction fuel with
  | zero => intro mem pc steps _; rfl
  | succ n ih =>
    intro mem pc steps hlen
    simp only [execLoop, execLoopChecked]
    split
    · next hg =>
      have hpc2 : pc + 2 < mem.length := by omega
      have ha : wrapAddr (mem.getD pc 0) < mem.length := hlen ▸ wrapAddr_lt _
      have hb : wrapAddr (mem.getD (pc + 1) 0) < mem.length := hlen ▸ wrapAddr_lt _
      rw [get?_eq_some_getD mem pc (by omega), get?_eq_some_getD mem (pc + 1) (by omega),
        get?_eq_some_getD mem (pc + 2) (by omega)]
      simp only [Option.bind_eq_bind, Option.some_bind]
      rw [get?_eq_some_getD mem _ ha, get?_eq_some_getD mem _ hb]
      simp only [Option.bind_eq_bind, Option.some_bind]
      have hcond : wrapAddr (mem.getD pc 0) < mem.length ∧
          wrapAddr (mem.getD (pc + 1) 0) < mem.length := ⟨ha, hb⟩
      rw [if_pos hcond]
      have hlen' : (mem.set (wrapAddr (mem.getD pc 0))
          (i32wrapSub (mem.getD (wrapAddr (mem.getD pc 0)) 0)
            (mem.getD (wrapAddr (mem.getD (pc + 1) 0)) 0))).length = memorySize.toNat := by
        rw [List.length_set]; exact hlen
      split
      · exact ih _ _ _ hlen'
      · exact ih _ _ _ hlen'
    · rfl

theorem execLoopNoCheck_eq (fuel : Nat) :
    ∀ mem pc steps, mem.length = memorySize.toNat →
      execLoopNoCheck fuel mem pc steps = execLoop fuel mem pc steps := by
  induction fuel with
  | zero => intro mem pc steps _; rfl
  | succ n ih =>
    intro mem pc steps hlen
    simp only [execLoop, execLoopNoCheck]
    split
    · next hg =>
      have ha : wrapAddr (mem.getD pc 0) < mem.length := hlen ▸ wrapAddr_lt _
      have hb : wrapAddr (mem.getD (pc + 1) 0) < mem.length := hlen ▸ wrapAddr_lt _
      have hcond : wrapAddr (mem.getD pc 0) < mem.length ∧
          wrapAddr (mem.getD (pc + 1) 0) < mem.length := ⟨ha, hb⟩
      rw [if_pos hcond]
      have hlen' : (mem.set (wrapAddr (mem.getD pc 0))
          (i32wrapSub (mem.getD (wrapAddr (mem.getD pc 0)) 0)
            (mem.getD (wrapAddr (mem.getD (pc + 1) 0)) 0))).length = memorySize.toNat := by
        rw [List.length_set]; exact hlen
      split
      · exact ih _ _ _ hlen'
      · exact ih _ _ _ hlen'
    · rfl

theorem loadMemory_length (code : List Int) (h : code.length ≤ memorySize.toNat) :
    (loadMemory code).length = memorySize.toNat := by
  simp only [loadMemory, List.length_append, List.length_replicate]
  omega

/-! ## Claim theorems -/

/-- C3: for every genome of length at most `memory_size`, execution is
total and fault-free — the fault-checking interpreter (whose reads are
all bounds-checked and whose defensive branch is removed) returns `some`
of exactly the plain execution result, and removing the defensive
`a < len && b < len` check does not change the result, i.e. that branch
is unreachable. -/
theorem c3_execute_total_no_fault (g : List Int) (h : g.length ≤ memorySize.toNat) :
    execLoopChecked maxExecutionSteps (loadMemory g) 0 0 = some (execute g) ∧
    execLoopNoCheck maxExecutionSteps (loadMemory g) 0 0 = execute g :=
  ⟨execLoopChecked_eq _ _ _ _ (loadMemory_length g h),
   execLoopNoCheck_eq _ _ _ _ (loadMemory_length g h)⟩

set_option maxRecDepth 1000000 in
/-- Witness for C3 at the genome `[1, 1, 0]`. -/
theorem c3_witness :
    execLoopChecked maxExecutionSteps (loadMemory [1, 1, 0]) 0 0 = some (execute [1, 1, 0]) ∧
    execLoopNoCheck maxExecutionSteps (loadMemory [1, 1, 0]) 0 0 = execute [1, 1, 0] :=
  c3_execute_total_no_fault [1, 1, 0] (by decide)

/-- C4: the step count returned by `execute` is at most
`max_execution_steps`, unconditionally. -/
theorem c4_step_bound (g : List Int) : (execute g).2 ≤ maxExecutionSteps :=
  execLoop_steps_le _ _ _ _ (Nat.zero_le _)

set_option maxRecDepth 1000000 in
/-- C8: the all-zero genome of length 6 self-loops at address 0 and
runs for exactly `max_execution_steps` steps, leaving memory all zero,
and the fault-checking interpreter agrees (no fault occurs). -/
theorem c8_zero_genome_step_cap :
    execute (List.replicate 6 0) = (List.replicate 256 0, maxExecutionSteps) ∧
    execLoopChecked maxExecutionSteps (loadMemory (List.replicate 6 0)) 0 0 =
      some (List.replicate 256 0, maxExecutionSteps) := by
  have h1 : execute (List.replicate 6 0) = (List.replicate 256 0, maxExecutionSteps) := by
    decide
  refine ⟨h1, ?_⟩
  rw [execLoopChecked_eq _ _ _ _ (loadMemory_length _ (by decide))]
  exact congrArg some h1

/-! ## Scan lemmas -/

theorem scanMatchAux_le (result : List Int) :
    ∀ (code : List Int) (idx : Nat), scanMatchAux result idx code ≤ code.length := by
  intro code
  induction code with
  | nil => intro idx; exact Nat.le_refl 0
  | cons v rest ih =>
    intro idx
    rw [scanMatchAux]
    have := ih (idx + 1)
    split
    · simp only [List.length_cons]; omega
    · exact Nat.zero_le _

theorem foldl_max_le {B : Nat} (f : Nat → Nat) :
    ∀ (l : List Nat) (acc : Nat), acc ≤ B → (∀ i ∈ l, f i ≤ B) →
      l.foldl (fun a i => max a (f i)) acc ≤ B := by
  intro l
  induction l with
  | nil => intro acc ha _; exact ha
  | cons x xs ih =>
    intro acc ha hl
    refine ih (max acc (f x)) ?_ fun i hi => hl i (List.mem_cons_of_mem x hi)
    exact max_le ha (hl x (List.mem_cons_self x xs))

theorem foldl_max_eq_sup (f : Nat → Nat) :
    ∀ n : Nat, (List.range n).foldl (fun a i => max a (f i)) 0 = (Finset.range n).sup f := by
  intro n
  induction n with
  | zero => rfl
  | succ n ih =>
    rw [List.range_succ, List.foldl_append, Finset.range_succ, Finset.sup_insert, ih]
    simp only [List.foldl_cons, List.foldl_nil]
    exact max_comm ..

theorem scanMatchAux_eq_specPrefixLen (result : List Int) :
    ∀ (code : List Int) (i : Nat), i + code.length ≤ result.length →
      scanMatchAux result i code = specPrefixLen result code i := by
  intro code
  induction code with
  | nil => intro i _; rfl
  | cons v rest ih =>
    intro i h
    have hi : i < result.length := by simp only [List.length_cons] at h; omega
    have hgd : result.getD i 0 = result[i] := by
      rw [List.getD_eq_getElem?_getD, List.getElem?_eq_getElem hi]; rfl
    rw [scanMatchAux, specPrefixLen]
    simp only [List.length_cons, List.drop_eq_getElem_cons hi, List.take_succ_cons,
      List.zip_cons_cons, List.takeWhile_cons]
    by_cases hv : result[i] = v
    · rw [if_pos (hgd ▸ hv), if_pos (beq_iff_eq.mpr hv.symm)]
      have hrec := ih (i + 1) (by simp only [List.length_cons] at h; omega)
      rw [hrec, specPrefixLen]
      simp only [List.length_cons]
      omega
    · rw [if_neg (fun hh => hv (hgd ▸ hh)),
        if_neg (fun hb => hv (beq_iff_eq.mp hb).symm)]
      rfl

theorem maxCopies_le (code result : List Int) : maxCopies code result ≤ code.length := by
  refine foldl_max_le _ _ _ (Nat.zero_le _) fun i _ => scanMatchAux_le result code i

theorem maxCopies_eq_sup (code result : List Int) (h : code.length ≤ result.length) :
    maxCopies code result =
      (Finset.range (result.length - code.length)).sup
        (fun i => specPrefixLen result code i) := by
  rw [maxCopies, foldl_max_eq_sup]
  refine Finset.sup_congr rfl fun i hi => ?_
  rw [Finset.mem_range] at hi
  exact scanMatchAux_eq_specPrefixLen result code i (by omega)

theorem zip_self_takeWhile_length (l : List Int) :
    ((l.zip l).takeWhile fun p => p.1 == p.2).length = l.length := by
  induction l with
  | nil => rfl
  | cons v rest ih =>
    rw [List.zip_cons_cons, List.takeWhile_cons, if_pos (beq_self_eq_true v)]
    simp only [List.length_cons, ih]

theorem specPrefixLen_of_slice_eq (result g : List Int) (i : Nat)
    (hs : (result.drop i).take g.length = g) : specPrefixLen result g i = g.length := by
  rw [specPrefixLen, hs, zip_self_takeWhile_length]

theorem execute_length (g : List Int) (h : g.length ≤ memorySize.toNat) :
    (execute g).1.length = memorySize.toNat := by
  rw [execute, execLoop_length]
  exact loadMemory_length g h

/-- C1 (amended): the fitness evaluator's scan considers exactly the
start offsets `0 ≤ i < memory_size − len(genome)` — including the
genome's own load region — and `best_match` is the maximum over those
offsets of the longest prefix-match length. -/
theorem c1_scan_range (g : List Int) (h : g.length ≤ memorySize.toNat) :
    maxCopies g (execute g).1 =
      (Finset.range (memorySize.toNat - g.length)).sup
        (specPrefixLen (execute g).1 g) := by
  have hL : (execute g).1.length = memorySize.toNat := execute_length g h
  rw [maxCopies_eq_sup g (execute g).1 (by omega), hL]

/-- Witness for C1 at the genome `[3, 3, 254, 0, 0, 0]`. -/
theorem c1_scan_range_witness :
    maxCopies gSelfIntact (execute gSelfIntact).1 =
      (Finset.range (memorySize.toNat - gSelfIntact.length)).sup
        (specPrefixLen (execute gSelfIntact).1 gSelfIntact) :=
  c1_scan_range gSelfIntact (by decide)

set_option maxRecDepth 1000000 in
set_option maxHeartbeats 8000000 in
/-- Counterexample to C1 as stated, in both directions. For the genome
`[3, 3, 254, 0, 0, 0]` (which halts after one step leaving its load
region intact and the rest of memory zero), the code's scan yields
`best_match = 6` — the full match coming from the load region at offset
`0` — whereas the maximum over the claimed offsets
`len(genome) ≤ i ≤ memory_size − len(genome)` is `0`. Conversely, for
`gTopCopy` (length 128, which copies itself to offset
`128 = memory_size − len`), the claimed scan sees the full copy (`128`)
but the code's scan — whose offsets stop strictly below
`memory_size − len` — computes only `1`. -/
theorem c1_counterexample :
    (maxCopies gSelfIntact (execute gSelfIntact).1 = 6 ∧
      claimScanBest gSelfIntact = 0 ∧ gSelfIntact.length = 6) ∧
    (maxCopies gTopCopy (execute gTopCopy).1 = 1 ∧
      claimScanBest gTopCopy = 128 ∧ gTopCopy.length = 128) := by
  refine ⟨⟨by decide, by decide, by decide⟩, ⟨by decide, by decide, by decide⟩⟩

/-- C6: if `verify_replication(g)` is true then the fitness scan's
`best_match` for `g` equals `|g|`. -/
theorem c6_verify_implies_full_match (g : List Int)
    (h : verify_replication g = true) :
    maxCopies g (execute g).1 = g.length := by
  simp only [verify_replication, List.any_eq_true, List.mem_range', beq_iff_eq] at h
  obtain ⟨i, ⟨k, hk, hik⟩, hslice⟩ := h
  have hspec : specPrefixLen (execute g).1 g i = g.length :=
    specPrefixLen_of_slice_eq _ _ _ hslice
  have hbound : i + g.length ≤ (execute g).1.length := by omega
  have hge : g.length ≤ maxCopies g (execute g).1 := by
    rw [maxCopies_eq_sup g (execute g).1 (by omega)]
    calc g.length = specPrefixLen (execute g).1 g i := hspec.symm
      _ ≤ _ := Finset.le_sup (Finset.mem_range.mpr (by omega))
  have hle := maxCopies_le g (execute g).1
  omega

set_option maxRecDepth 1000000 in
/-- Witness for C6 at the all-zero genome of length 6 (whose execution
leaves memory all zero, so every window is an exact copy). -/
theorem c6_witness : maxCopies (List.replicate 6 0) (execute (List.replicate 6 0)).1 = 6 :=
  c6_verify_implies_full_match (List.replicate 6 0) (by decide)

/-- C10: for every genome of length between 1 and `memory_size`, the
fitness score is at most 1000. -/
theorem c10_fitness_bound (g : List Int) (_h1 : 1 ≤ g.length)
    (h2 : g.length ≤ memorySize.toNat) : fitness g ≤ 1000 := by
  rw [fitness]
  split
  · next heq =>
    apply Nat.div_le_of_le_mul
    rw [heq]
    calc g.length * 1000 ≤ g.length * max (execute g).2 1 * 1000 :=
          Nat.mul_le_mul_right 1000
            (Nat.le_mul_of_pos_right g.length (lt_of_lt_of_le Nat.one_pos (le_max_right _ _)))
      _ = g.length * max (execute g).2 1 * 1000 := rfl
  · next _ =>
    refine le_trans (maxCopies_le g (execute g).1) ?_
    have : memorySize.toNat = 256 := by decide
    omega

/-- Witness for C10 at the genome `[3, 3, 254, 0, 0, 0]`. -/
theorem c10_fitness_bound_witness : fitness gSelfIntact ≤ 1000 :=
  c10_fitness_bound gSelfIntact (by decide) (by decide)

/-- C2 (amended): `verify_replication(genome)` returns true iff there is
an offset `i` with `len(genome) ≤ i < memory_size − len(genome)` —
strictly below `memory_size − len(genome)`, so the one full-length
window at offset exactly `memory_size − len(genome)` is never examined —
at which the memory slice equals the genome. -/
theorem c2_verify_iff (g : List Int) (h : g.length ≤ memorySize.toNat) :
    verify_replication g = true ↔
      ∃ i, g.length ≤ i ∧ i < memorySize.toNat - g.length ∧
        ((execute g).1.drop i).take g.length = g := by
  have hL : (execute g).1.length = memorySize.toNat := execute_length g h
  simp only [verify_replication, List.any_eq_true, List.mem_range', beq_iff_eq,
    one_mul, hL]
  constructor
  · rintro ⟨i, ⟨k, hk, hik⟩, hslice⟩
    exact ⟨i, by omega, by omega, hslice⟩
  · rintro ⟨i, h1, h2, hslice⟩
    exact ⟨i, ⟨i - g.length, by omega, by omega⟩, hslice⟩

set_option maxRecDepth 1000000 in
/-- Witness for C2 at the all-zero genome of length 6: memory stays all
zero, so the window at offset 6 is an exact copy. -/
theorem c2_verify_iff_witness : verify_replication (List.replicate 6 0) = true :=
  (c2_verify_iff (List.replicate 6 0) (by decide)).mpr
    ⟨6, by decide, by decide, by decide⟩

set_option maxRecDepth 1000000 in
/-- Counterexample to C2 as stated: `gTopCopy` (length 128) plants an
exact copy of itself at offset `128 = memory_size − len`, an offset at
which a full-length window fits, yet `verify_replication` returns
`false`, because its scan range `len .. memory_size − len` is empty for
length-128 genomes and in general stops one offset short of the last
full-length window. -/
theorem c2_counterexample :
    verify_replication gTopCopy = false ∧
    ∃ i, gTopCopy.length ≤ i ∧ i ≤ memorySize.toNat - gTopCopy.length ∧
      ((execute gTopCopy).1.drop i).take gTopCopy.length = gTopCopy := by
  refine ⟨by decide, 128, by decide, by decide, by decide⟩

/-- C5: for realized draws `split ∈ [0, min(|A|,|B|))` and
`child_len ∈ [min(|A|,|B|), max(|A|,|B|)]`, the crossover child has
length `child_len` (hence within `[min, max]`), agrees with parent A
on `[0, split)` and with parent B on `[split, min(|A|,|B|))`. -/
theorem c5_crossover (a b fresh : List Int) (split childLen : Nat)
    (h1 : split < min a.length b.length)
    (h2 : min a.length b.length ≤ childLen)
    (h3 : childLen ≤ max a.length b.length)
    (h4 : fresh.length = childLen - min a.length b.length) :
    (crossover a b split fresh).length = childLen ∧
    min a.length b.length ≤ (crossover a b split fresh).length ∧
    (crossover a b split fresh).length ≤ max a.length b.length ∧
    (∀ i, i < split → (crossover a b split fresh).getD i 0 = a.getD i 0) ∧
    (∀ i, split ≤ i → i < min a.length b.length →
      (crossover a b split fresh).getD i 0 = b.getD i 0) := by
  have hsa : split ≤ a.length := le_of_lt (lt_of_lt_of_le h1 (min_le_left _ _))
  have hmb : min a.length b.length ≤ b.length := min_le_right _ _
  have hlt : (List.take split a).length = split := by rw [List.length_take]; omega
  have hlen : (crossover a b split fresh).length = childLen := by
    simp only [crossover, List.length_append, List.length_take, List.length_drop]
    omega
  have hmid : (List.take split a ++
      (List.take (min a.length b.length) b).drop split).length =
      min a.length b.length := by
    rw [List.length_append, List.length_take, List.length_drop, List.length_take]
    omega
  refine ⟨hlen, by omega, by omega, ?_, ?_⟩
  · intro i hi
    rw [crossover, List.getD_eq_getElem?_getD, List.getD_eq_getElem?_getD,
      List.getElem?_append, if_pos (by rw [hmid]; omega),
      List.getElem?_append, if_pos (by rw [hlt]; omega), List.getElem?_take,
      if_pos hi]
  · intro i hi1 hi2
    rw [crossover, List.getD_eq_getElem?_getD, List.getD_eq_getElem?_getD,
      List.getElem?_append, if_pos (by rw [hmid]; omega),
      List.getElem?_append_right (by rw [hlt]; omega), hlt, List.getElem?_drop]
    have hidx : split + (i - split) = i := by omega
    rw [hidx, List.getElem?_take, if_pos hi2]

/-- Witness for C5: parents `[1,2,3]` and `[4,5,6,7]`, split 1,
child length 4, one fresh value. -/
theorem c5_crossover_witness :
    (crossover [1, 2, 3] [4, 5, 6, 7] 1 [9]).length = 4 ∧
    (crossover [1, 2, 3] [4, 5, 6, 7] 1 [9]).getD 0 0 = List.getD [1, 2, 3] 0 0 ∧
    (crossover [1, 2, 3] [4, 5, 6, 7] 1 [9]).getD 2 0 = List.getD [4, 5, 6, 7] 2 0 :=
  ⟨(c5_crossover [1, 2, 3] [4, 5, 6, 7] [9] 1 4 (by decide) (by decide)
      (by decide) (by decide)).1,
   (c5_crossover [1, 2, 3] [4, 5, 6, 7] [9] 1 4 (by decide) (by decide)
      (by decide) (by decide)).2.2.2.1 0 (by decide),
   (c5_crossover [1, 2, 3] [4, 5, 6, 7] [9] 1 4 (by decide) (by decide)
      (by decide) (by decide)).2.2.2.2 2 (by decide) (by decide)⟩

/-- C7: every genome-producing operation — random construction,
crossover, and mutation — yields values in `[−memory_size, memory_size)`
whenever its inputs (parent genomes and realized random draws) are in
that range; the invariant is preserved across generations. -/
theorem c7_value_range :
    (∀ (n : Nat) (draw : Nat → Int), (∀ i, valueInRange (draw i)) →
      ∀ v ∈ SUBLEQProgram.new n draw, valueInRange v) ∧
    (∀ (a b : List Int) (split : Nat) (fresh : List Int),
      (∀ v ∈ a, valueInRange v) → (∀ v ∈ b, valueInRange v) →
      (∀ v ∈ fresh, valueInRange v) →
      ∀ v ∈ crossover a b split fresh, valueInRange v) ∧
    (∀ (g : List Int) (flip : Nat → Bool) (draw : Nat → Int),
      (∀ v ∈ g, valueInRange v) → (∀ i, valueInRange (draw i)) →
      ∀ v ∈ mutate g flip draw, valueInRange v) := by
  refine ⟨?_, ?_, ?_⟩
  · intro n draw hdraw v hv
    rw [SUBLEQProgram.new] at hv
    obtain ⟨i, _, rfl⟩ := List.mem_map.mp hv
    exact hdraw i
  · intro a b split fresh ha hb hf v hv
    rw [crossover] at hv
    rcases List.mem_append.mp hv with h | h
    · rcases List.mem_append.mp h with h' | h'
      · exact ha v (List.mem_of_mem_take h')
      · exact hb v (List.mem_of_mem_take (List.mem_of_mem_drop h'))
    · exact hf v h
  · intro g flip draw hg hdraw v hv
    rw [mutate] at hv
    obtain ⟨i, hi, hvi⟩ := List.mem_iff_getElem.mp hv
    rw [List.getElem_mapIdx] at hvi
    have hig : i < g.length := by
      rw [List.length_mapIdx] at hi; exact hi
    by_cases hfl : flip i
    · rw [if_pos hfl] at hvi
      exact hvi ▸ hdraw i
    · rw [if_neg hfl] at hvi
      exact hvi ▸ hg _ (List.getElem_mem hig)

/-- Witness for C7: the value `2` produced by a concrete crossover of
in-range parents is in range. -/
theorem c7_value_range_witness : valueInRange 2 :=
  c7_value_range.2.1 [1] [2] 0 [] (by decide) (by decide) (by decide) 2 (by decide)

theorem foldl_max_init_le (l : List Nat) : ∀ acc, acc ≤ l.foldl max acc := by
  induction l with
  | nil => intro acc; exact Nat.le_refl acc
  | cons x xs ih =>
    intro acc
    exact le_trans (le_max_left acc x) (ih (max acc x))

theorem elem_le_foldl_max (l : List Nat) :
    ∀ acc x, x ∈ l → x ≤ l.foldl max acc := by
  induction l with
  | nil => intro acc x hx; cases hx
  | cons y ys ih =>
    intro acc x hx
    rcases List.mem_cons.mp hx with rfl | hx'
    · exact le_trans (le_max_right acc x) (foldl_max_init_le ys (max acc x))
    · exact ih (max acc y) x hx'

theorem foldl_max_mem (l : List Nat) :
    ∀ acc, l.foldl max acc = acc ∨ l.foldl max acc ∈ l := by
  induction l with
  | nil => intro acc; exact Or.inl rfl
  | cons x xs ih =>
    intro acc
    rcases ih (max acc x) with h | h
    · rcases max_choice acc x with hm | hm
      · exact Or.inl (by rw [List.foldl_cons, h, hm])
      · refine Or.inr ?_
        rw [List.foldl_cons, h, hm]
        exact List.mem_cons_self x xs
    · exact Or.inr (List.mem_cons_of_mem x h)

theorem bestFitness_mem (scores : List Nat) (h : scores ≠ []) :
    bestFitness scores ∈ scores := by
  rcases foldl_max_mem scores 0 with h0 | hm
  · match scores, h with
    | x :: xs, _ =>
      have hx : x ≤ (x :: xs).foldl max 0 := elem_le_foldl_max _ 0 x (List.mem_cons_self x xs)
      rw [bestFitness, h0]
      rw [h0] at hx
      have : x = 0 := Nat.le_zero.mp hx
      rw [← this]
      exact List.mem_cons_self x xs
  · exact hm

/-- C9: the individual selected for the replication check is the first
one (in population order) whose fitness equals the maximum fitness:
the selected index is valid, its score is the maximum, every earlier
score differs from the maximum, and every score is at most it. -/
theorem c9_best_selection (scores : List Nat) (h : scores ≠ []) :
    bestIdx scores < scores.length ∧
    scores.getD (bestIdx scores) 0 = bestFitness scores ∧
    (∀ j, j < bestIdx scores → scores.getD j 0 ≠ bestFitness scores) ∧
    (∀ j, j < scores.length → scores.getD j 0 ≤ bestFitness scores) := by
  have hmem : bestFitness scores ∈ scores := bestFitness_mem scores h
  have hex : ∃ x ∈ scores, (x == bestFitness scores) = true :=
    ⟨_, hmem, beq_self_eq_true _⟩
  have hlt : bestIdx scores < scores.length := by
    rw [bestIdx]; exact List.findIdx_lt_length.mpr hex
  refine ⟨hlt, ?_, ?_, ?_⟩
  · rw [List.getD_eq_getElem?_getD, List.getElem?_eq_getElem hlt, Option.getD_some]
    have hfe := @List.findIdx_getElem _ (fun s => s == bestFitness scores) scores
      (by unfold bestIdx at hlt; exact hlt)
    exact beq_iff_eq.mp hfe
  · intro j hj
    unfold bestIdx at hj
    have hjl : j < scores.length :=
      lt_trans hj (by unfold bestIdx at hlt; exact hlt)
    have hne := List.not_of_lt_findIdx hj
    rw [List.getD_eq_getElem?_getD, List.getElem?_eq_getElem hjl, Option.getD_some]
    intro hcontra
    rw [hcontra, beq_self_eq_true] at hne
    cases hne
  · intro j hj
    rw [List.getD_eq_getElem?_getD, List.getElem?_eq_getElem hj, Option.getD_some,
      bestFitness]
    exact elem_le_foldl_max scores 0 _ (List.getElem_mem hj)

/-- Witness for C9 at the score list `[1, 3, 3, 2]` (maximum 3, first
attained at index 1). -/
theorem c9_best_selection_witness :
    bestIdx [1, 3, 3, 2] < ([1, 3, 3, 2] : List Nat).length ∧
    List.getD [1, 3, 3, 2] (bestIdx [1, 3, 3, 2]) 0 = bestFitness [1, 3, 3, 2] :=
  ⟨(c9_best_selection [1, 3, 3, 2] (by decide)).1,
   (c9_best_selection [1, 3, 3, 2] (by decide)).2.1⟩
